import Mathlib

/-!
# Verification of the Requirementz requirement-consistency engine

A shallow embedding of `requirementz.py` (the Requirement Specification and
Consistency Engine): the version comparator, requirement values and their
equality/ordering/serialization, the collection operations (`add_line`,
`from_lines`, the sort used by `write`), and the `SafeWriter`
backup-on-write state machine.  Strings are modelled as `List Char`
(`LC`), matching Python's sequence-of-code-points semantics.

The requirement-line parser lives in the external `requirements` library
(only its caller is in the repository source); it is modelled from the
specification's §4.1 contract where needed.
-/

namespace Requirementz

/-- Python strings are sequences of code points; we model them as lists of
characters. -/
abbrev LC := List Char

/-! ## Whitespace stripping (models Python `str.strip` / `str.lstrip`) -/

/-- Model of Python `str.lstrip()`: drop leading whitespace. -/
def pylstrip (l : LC) : LC := l.dropWhile Char.isWhitespace

/-- Model of Python right-strip: drop trailing whitespace. -/
def pyrstrip (l : LC) : LC := (l.reverse.dropWhile Char.isWhitespace).reverse

/-- Model of Python `str.strip()`: drop whitespace on both ends. -/
def pystrip (l : LC) : LC := pyrstrip (pylstrip l)

/-! ## Splitting and joining (model Python `str.split` / `str.join`) -/

/-- Model of Python `s.split(c)` for a single-character separator. -/
def splitOnChar (c : Char) : LC → List LC
  | [] => [[]]
  | x :: xs =>
    if x = c then [] :: splitOnChar c xs
    else
      match splitOnChar c xs with
      | [] => [[x]]
      | p :: ps => (x :: p) :: ps

/-- Model of Python `sep.join(parts)`. -/
def joinSep (sep : LC) : List LC → LC
  | [] => []
  | [p] => p
  | p :: ps => p ++ sep ++ joinSep sep ps

/-- Option-valued map over a list, failing if any element fails. -/
def mapOption (f : α → Option β) : List α → Option (List β)
  | [] => some []
  | a :: as =>
    match f a, mapOption f as with
    | some b, some bs => some (b :: bs)
    | _, _ => none

/-- Boolean prefix test on lists (models Python `str.startswith`). -/
def isPre : LC → LC → Bool
  | [], _ => true
  | _ :: _, [] => false
  | a :: as, b :: bs => a == b && isPre as bs

/-! ## Lexicographic order on strings (models Python `str` comparison) -/

/-- Strict lexicographic order on strings by code point, as Python's `<`
on `str` values. -/
def lexLt : LC → LC → Bool
  | [], [] => false
  | [], _ :: _ => true
  | _ :: _, [] => false
  | a :: as, b :: bs =>
    if a.toNat < b.toNat then true
    else if b.toNat < a.toNat then false
    else lexLt as bs

/-! ## The version comparator

`RequirementPlus.compare_versions` delegates to `OP_FUNCS`, whose entries
compare `pkg_resources.parse_version(v1)` against `parse_version(v2)`.
`parse_version` is external library code; it is modelled here on
release-style versions exactly as the specification §4.2 describes it
(and as `pkg_resources` behaves on such versions): split on `.`, numeric
segments compare numerically with zero padding for differing lengths,
and non-numeric trailing segments are ignored for ordering purposes. -/

/-- Numeric value of a digit string. -/
def digitsToNat (l : LC) : Nat := l.foldl (fun n c => n * 10 + (c.toNat - 48)) 0

/-- A version segment is numeric when it is a non-empty digit string. -/
def isNumSeg (l : LC) : Bool := !l.isEmpty && l.all Char.isDigit

/-- Modelled from the spec: `pkg_resources.parse_version` (external
library, not in the repository source) restricted to its release
component — split on `.`, keep the leading run of numeric segments,
ignore non-numeric trailing segments. -/
def parse_version (s : LC) : List Nat :=
  ((splitOnChar '.' s).takeWhile isNumSeg).map digitsToNat

/-- Compare two release tuples, padding the shorter with zeros
(so `[1, 0]` equals `[1, 0, 0]`). -/
def verCmp : List Nat → List Nat → Ordering
  | [], ys => if ys.all (· = 0) then Ordering.eq else Ordering.lt
  | x :: xs, [] => if 0 < x then Ordering.gt else verCmp xs []
  | x :: xs, y :: ys =>
    if x < y then Ordering.lt
    else if y < x then Ordering.gt
    else verCmp xs ys

/-- The five recognized comparison operators (keys of `OP_FUNCS`). -/
def opEQ : LC := ['=', '=']

/-- The `>=` operator string. -/
def opGE : LC := ['>', '=']

/-- The `<=` operator string. -/
def opLE : LC := ['<', '=']

/-- The `>` operator string. -/
def opGT : LC := ['>']

/-- The `<` operator string. -/
def opLT : LC := ['<']

/-- The key set of `OP_FUNCS`. -/
def opKeys : List LC := [opEQ, opGE, opLE, opGT, opLT]

/-- Dictionary dispatch `OP_FUNCS.get(op, OP_FUNCS['>='])` applied to the
comparison outcome of the two parsed versions. -/
def applyOp (op : LC) (c : Ordering) : Bool :=
  if op = opEQ then c == Ordering.eq
  else if op = opGE then c != Ordering.lt
  else if op = opLE then c != Ordering.gt
  else if op = opGT then c == Ordering.gt
  else if op = opLT then c == Ordering.lt
  else c != Ordering.lt

/-- `RequirementPlus.compare_versions(ver1, op, ver2)`:
`OP_FUNCS.get(op, OP_FUNCS['>='])(ver1, ver2)` — dictionary dispatch on
the operator with `>=` as the default for unknown operators. -/
def compare_versions (ver1 : LC) (op : LC) (ver2 : LC) : Bool :=
  applyOp op (verCmp (parse_version ver1) (parse_version ver2))

/-! ## The satisfaction engine

`RequirementPlus.satisfied(against)` iterates over the `against`
requirement's spec pairs (outer loop) and over this requirement's own
spec pairs (inner loop), returning `True` as soon as one
`compare_versions` call succeeds.  When checking against the installed
version, `installed_version()` supplies a requirement whose specs are the
single pair `('==', installed_ver)`, and a missing installed package
yields `False` immediately. -/

/-- The nested `for` loops of `RequirementPlus.satisfied`: true iff some
against-version together with some own spec pair compares true. -/
def satisfied (specs : List (LC × LC)) (againstSpecs : List (LC × LC)) : Bool :=
  againstSpecs.any fun av => specs.any fun sp => compare_versions av.2 sp.1 sp.2

/-- `RequirementPlus.satisfied()` with no `against` argument: compare the
requirement's specs against the installed version (a single
`('==', ver)` spec), or `False` when the package is not installed. -/
def satisfiedByInstalled (specs : List (LC × LC)) (installed : Option LC) : Bool :=
  match installed with
  | none => false
  | some v => satisfied specs [(opEQ, v)]

/-- C3: for a requirement whose package is installed, the requirement is
satisfied iff at least one `(operator, version)` pair in its specs
evaluates true against the installed version — the any-of policy. -/
theorem c3_satisfied_any_of (specs : List (LC × LC)) (v : LC) :
    satisfiedByInstalled specs (some v) = true ↔
      ∃ sp ∈ specs, compare_versions v sp.1 sp.2 = true := by
  simp [satisfiedByInstalled, satisfied, List.any_eq_true]

/-- C4: the comparator truth table — `satisfies("1.0.1", ">=", "1.0.0")`
is true, `satisfies("2.0.0", "<=", "1.0.0")` is false, and
`satisfies("1.0", "==", "1.0.0")` is true (numeric segments of differing
lengths are padded with zeros). -/
theorem c4_comparator_truth_table :
    compare_versions "1.0.1".toList ">=".toList "1.0.0".toList = true ∧
    compare_versions "2.0.0".toList "<=".toList "1.0.0".toList = false ∧
    compare_versions "1.0".toList "==".toList "1.0.0".toList = true := by
  decide

/-- C5: for every operator string outside `{==, >=, <=, >, <}` the
comparator evaluates the constraint as if the operator were `>=`
(`OP_FUNCS.get(op, OP_FUNCS['>='])` falls back to the `>=` entry). -/
theorem c5_unknown_op_defaults_ge (op : LC) (h : op ∉ opKeys) (v1 v2 : LC) :
    compare_versions v1 op v2 = compare_versions v1 opGE v2 := by
  simp only [opKeys, List.mem_cons, List.not_mem_nil, or_false, not_or] at h
  obtain ⟨h1, h2, h3, h4, h5⟩ := h
  unfold compare_versions applyOp
  rw [if_neg h1, if_neg h2, if_neg h3, if_neg h4, if_neg h5,
    if_neg (by decide : ¬ (opGE = opEQ)), if_pos rfl]

/-- Witness for C5 at the concrete unknown operator `~=`. -/
theorem c5_unknown_op_defaults_ge_witness :
    compare_versions "1.2".toList "~=".toList "1.0".toList =
      compare_versions "1.2".toList opGE "1.0".toList :=
  c5_unknown_op_defaults_ge "~=".toList (by decide) "1.2".toList "1.0".toList

/-! ## The requirement data model

`RequirementPlus` extends `requirements.requirement.Requirement`; its
data is the parsed line: `name`, `extras`, `specs`, the line kind
(a normal registry entry, an editable local path, or a version-control
reference), and the kind-specific `path` / `uri` / `revision` fields.
Fields not meaningful for a kind are empty. -/

/-- The three recognized line shapes (spec §4.1 / `local_file`-`vcs`
flags of the parsed requirement). -/
inductive ReqKind where
  | registry
  | localPath
  | versionControlRef
deriving DecidableEq

/-- One parsed requirement line. -/
structure Req where
  name : LC
  extras : List LC
  specs : List (LC × LC)
  kind : ReqKind
  path : LC
  uri : LC
  revision : LC
deriving DecidableEq

/-- Characters that can make up a package name in a requirement line
(letters, digits, `-`, `_`, `.`). -/
def nameChar (c : Char) : Bool := c.isAlphanum || c = '-' || c = '_' || c = '.'

/-- Characters that can make up a comparison operator. -/
def opChar (c : Char) : Bool := c = '=' || c = '<' || c = '>' || c = '!' || c = '~'

/-- Modelled from the spec (§4.1): parse one `operator version` spec
component.  The operator is the leading run of operator characters and
must be one of the recognized operators (unknown operators are a parse
error); the version string must be non-empty after the operator. -/
def parsePair (piece : LC) : Option (LC × LC) :=
  let p := pystrip piece
  let op := p.takeWhile opChar
  let ver := pystrip (p.dropWhile opChar)
  if op ∈ opKeys ∧ ver ≠ [] then some (op, ver) else none

/-- Modelled from the spec (§4.1): parse the comma-separated spec list of
a standard requirement line (empty when the line carries no version
constraint). -/
def parseSpecs (s : LC) : Option (List (LC × LC)) :=
  let t := pystrip s
  if t = [] then some []
  else mapOption parsePair (splitOnChar ',' t)

/-- Modelled from the spec (§4.1): recognize a version-control reference
`<uri>@<revision>#egg=<name>` — a URI, an `@revision`, and an `#egg=name`
fragment (the fragment starts at the first `#`).  Returns
`(uri, revision, egg name)`. -/
def parseVcs (s : LC) : Option (LC × LC × LC) :=
  let pre := s.takeWhile (· ≠ '#')
  match s.dropWhile (· ≠ '#') with
  | _ :: rest =>
    if isPre "egg=".toList rest then
      let egg := rest.drop 4
      let uri := pre.takeWhile (· ≠ '@')
      match pre.dropWhile (· ≠ '@') with
      | _ :: rev =>
        if uri ≠ [] ∧ rev ≠ [] ∧ egg ≠ [] then some (uri, rev, egg) else none
      | [] => none
    else none
  | [] => none

/-- Modelled from the spec (§4.1): the standard (registry) line shape:
`name[extra1,extra2] op1 ver1, op2 ver2, ...`.  The name is the leading
run of name characters and must be non-empty; extras are a bracketed
comma-separated list immediately after the name. -/
def parseRegistry (line : LC) : Option Req :=
  let name := line.takeWhile nameChar
  if name = [] then none
  else
    match line.dropWhile nameChar with
    | c :: rest =>
      if c = '[' then
        let inside := rest.takeWhile (· ≠ ']')
        match rest.dropWhile (· ≠ ']') with
        | _ :: tail =>
          let extras := (splitOnChar ',' inside).map pystrip
          (parseSpecs tail).map fun specs =>
            ⟨name, extras, specs, ReqKind.registry, [], [], []⟩
        | [] => none
      else
        (parseSpecs (c :: rest)).map fun specs =>
          ⟨name, [], specs, ReqKind.registry, [], [], []⟩
    | [] =>
      (parseSpecs []).map fun specs =>
        ⟨name, [], specs, ReqKind.registry, [], [], []⟩

/-- Modelled from the spec: `RequirementPlus.parse` (the parser of the
external `requirements` library; only its caller is in the repository
source), following the §4.1 contract.  An editable `-e` marker is
stripped first; an editable line with a version-control
`uri@revision#egg=name` shape is a VersionControlRef, any other editable
line is a LocalPath, and everything else is a standard registry entry.
Returns `none` for a `ParseError`. -/
def parseReq (line : LC) : Option Req :=
  if isPre "-e".toList line then
    let s := pylstrip (line.drop 2)
    match parseVcs s with
    | some (uri, rev, egg) =>
      some ⟨egg, [], [], ReqKind.versionControlRef, [], uri, rev⟩
    | none =>
      if s ≠ [] then some ⟨[], [], [], ReqKind.localPath, s, [], []⟩ else none
  else parseRegistry line

/-- `RequirementPlus.spec_string(color=False)`: the spec pairs rendered
as `op ver` joined by commas. -/
def spec_string (specs : List (LC × LC)) : LC :=
  joinSep [','] (specs.map fun sp => sp.1 ++ ' ' :: sp.2)

/-- `RequirementPlus.to_str(color=False, align=False)` (also `__str__`):
the canonical no-color line form — `-e <path>` for a local file,
`-e <uri>@<revision>#egg=<name>` for a version-control reference, and
`name[extras] specs` for a normal entry. -/
def to_str (r : Req) : LC :=
  match r.kind with
  | ReqKind.localPath => "-e ".toList ++ r.path
  | ReqKind.versionControlRef =>
    "-e ".toList ++ r.uri ++ '@' :: r.revision ++ "#egg=".toList ++ r.name
  | ReqKind.registry =>
    let extras :=
      if r.extras = [] then []
      else '[' :: joinSep [',', ' '] r.extras ++ [']']
    r.name ++ extras ++ ' ' :: spec_string r.specs

/-! ## Requirement equality and hashing -/

/-- Set equality of two spec lists (`set(self.specs) == set(other.specs)`). -/
def specsSetEq (a b : List (LC × LC)) : Bool :=
  a.all (fun x => x ∈ b) && b.all (fun x => x ∈ a)

/-- `RequirementPlus.__eq__`: two requirements are equal iff they have the
same specs set (the name plays no part). -/
def reqEq (a b : Req) : Bool := specsSetEq a.specs b.specs

/-- `RequirementPlus.__hash__` is `hash(str(self))`: the hash is a
function of the full canonical string (which includes the name).  We
model the hash by its input string — distinct inputs carry no guarantee
of equal hash values. -/
def hashKey (r : Req) : LC := to_str r

/-- Python `str.lower()` on a name. -/
def lowerL (l : LC) : LC := l.map Char.toLower

/-! ## The collection: `Requirementz.add_line`

The `for i, existingreq in enumerate(self[:])` loop acts on the first
entry whose lowercased name matches: raise `ValueError` when the parsed
requirement equals it (same specs set), otherwise replace it in place;
append when no name matches. -/

/-- Errors surfaced by `add_line` (both are `ValueError` in the code). -/
inductive AddError where
  | invalidSpec
  | alreadyRequirement
deriving DecidableEq

/-- The loop body of `Requirementz.add_line` after parsing: walk the
entries in order; at the first lowercased-name match either fail (specs
set equal) or replace in place; append when the loop finds no match.
Returns the new list and the `True`-for-added / `False`-for-replaced
flag. -/
def addReq (req : Req) : List Req → Except AddError (List Req × Bool)
  | [] => Except.ok ([req], true)
  | r :: rs =>
    if lowerL req.name = lowerL r.name then
      if reqEq req r then Except.error AddError.alreadyRequirement
      else Except.ok (req :: rs, false)
    else
      match addReq req rs with
      | Except.error e => Except.error e
      | Except.ok (rs2, added) => Except.ok (r :: rs2, added)

/-- `Requirementz.add_line(line)`: parse the line (a parse failure is a
`ValueError`), then add or replace. -/
def add_line (c : List Req) (line : LC) : Except AddError (List Req × Bool) :=
  match parseReq line with
  | none => Except.error AddError.invalidSpec
  | some req => addReq req c

/-! ## Sorting

`Requirementz.write` persists `sorted(self, key=lambda r: r.name)` — a
stable sort keyed by the name only.  We model Python's stable sort by a
stable insertion sort parameterized by a strict comparison. -/

/-- Stable insertion: `r` goes in front of the first element not
strictly below it, so earlier-input elements with an equal key stay in
front. -/
def insertS (lt : α → α → Bool) (r : α) : List α → List α
  | [] => [r]
  | y :: ys => if lt y r then y :: insertS lt r ys else r :: y :: ys

/-- Stable insertion sort with strict comparison `lt` (models Python
`sorted`). -/
def sortS (lt : α → α → Bool) : List α → List α
  | [] => []
  | x :: xs => insertS lt x (sortS lt xs)

/-- The strict comparison used by `Requirementz.write`:
`key=lambda r: r.name` under Python's string order. -/
def nameLt (a b : Req) : Bool := lexLt a.name b.name

/-- The sort performed by `Requirementz.write` before serializing. -/
def sortByName (l : List Req) : List Req := sortS nameLt l

/-! ## Loading: `Requirementz.from_lines`

`cls(RequirementPlus.parse(l) for l in sorted(lines))` — every line of
the file is passed to the parser, in sorted order, with no filtering of
blank or comment lines; the first parse failure aborts the load. -/

/-- Parse every line in order; the first failure aborts, carrying the
offending line. -/
def parseAll : List LC → Except LC (List Req)
  | [] => Except.ok []
  | l :: ls =>
    match parseReq l with
    | none => Except.error l
    | some r =>
      match parseAll ls with
      | Except.error e => Except.error e
      | Except.ok rs => Except.ok (r :: rs)

/-- `Requirementz.from_lines(lines)`: parse `sorted(lines)`, no
skipping of blank or comment lines. -/
def from_lines (lines : List LC) : Except LC (List Req) :=
  parseAll (sortS lexLt lines)

/-! ## The safe persistence writer

`SafeWriter` over a model file system mapping paths to contents.
`__enter__` copies an existing target to `<target>.bak` and opens the
target with mode `'w'` (truncating it); the write then lands in the
target file itself.  `__exit__` closes the file; on success it calls
`file_backup_remove` (which reads the never-assigned attribute
`self.backed_up` when no backup file exists — an `AttributeError`),
on failure it keeps the backup and reports its path. -/

/-- A model file system: a map from paths to file contents. -/
def FS := LC → Option LC

/-- Write (or overwrite) one file. -/
def FS.setFile (fs : FS) (p : LC) (content : LC) : FS :=
  fun q => if q = p then some content else fs q

/-- Remove one file. -/
def FS.removeFile (fs : FS) (p : LC) : FS :=
  fun q => if q = p then none else fs q

/-- The empty file system. -/
def emptyFS : FS := fun _ => none

/-- The backup naming convention `'{}.bak'.format(self.filename)`. -/
def bakPath (target : LC) : LC := target ++ ".bak".toList

/-- How the write body behaves inside the `with SafeWriter(...)` block:
it either completes, or raises after writing a prefix of the data. -/
inductive WriteAttempt where
  | completes
  | failsAfter (written : LC)

/-- Exceptions escaping a `SafeWriter`-guarded write. -/
inductive WriteError where
  | writeFailed (backup : Option LC)
  | attributeError
deriving DecidableEq

/-- Outcome of a guarded write: the resulting file system and the
escaped exception, if any. -/
structure WriteResult where
  fs : FS
  err : Option WriteError

/-- `SafeWriter.file_backup`: copy an existing target to `<target>.bak`;
a missing target needs no backup.  Returns the file system and the
`self.backup` attribute value. -/
def file_backup (fs : FS) (target : LC) : FS × Option LC :=
  match fs target with
  | none => (fs, none)
  | some orig => (fs.setFile (bakPath target) orig, some (bakPath target))

/-- `SafeWriter.file_backup_remove`: when no `<target>.bak` exists the
guard evaluates `self.backed_up` — an attribute never assigned anywhere
(`__init__` sets `self.backup`) — raising `AttributeError`; otherwise
the backup file is removed. -/
def file_backup_remove (fs : FS) (target : LC) : Except WriteError FS :=
  match fs (bakPath target) with
  | none => Except.error WriteError.attributeError
  | some _ => Except.ok (fs.removeFile (bakPath target))

/-- A complete `with SafeWriter(target) as f: f.write(content)` episode:
back up, truncate by opening with mode `'w'`, run the write body, and
run `__exit__` (remove the backup on success; keep and report it on
failure). -/
def safeWrite (fs : FS) (target content : LC) (attempt : WriteAttempt) :
    WriteResult :=
  let backed := file_backup fs target
  let fs2 := backed.1.setFile target []
  match attempt with
  | WriteAttempt.completes =>
    let fs3 := fs2.setFile target content
    match file_backup_remove fs3 target with
    | Except.error e => ⟨fs3, some e⟩
    | Except.ok fs4 => ⟨fs4, none⟩
  | WriteAttempt.failsAfter w =>
    ⟨fs2.setFile target w, some (WriteError.writeFailed backed.2)⟩

/-! ## Well-formedness invariants established by the parser

These record the shape guarantees a successful parse leaves on each
field; they are what makes serialize-then-reparse faithful. -/

/-- A parsed version string: non-empty, comma-free, and already
stripped. -/
def WFver (v : LC) : Prop :=
  v ≠ [] ∧ ',' ∉ v ∧ pystrip v = v

/-- Shape of every spec pair produced by the parser. -/
def WFspecs (specs : List (LC × LC)) : Prop :=
  ∀ sp ∈ specs, sp.1 ∈ opKeys ∧ WFver sp.2

/-- Shape of every extra produced by the parser. -/
def WFextras (extras : List LC) : Prop :=
  ∀ e ∈ extras, ',' ∉ e ∧ ']' ∉ e ∧ pystrip e = e

/-- Invariants of a parsed registry requirement. -/
def WFreg (r : Req) : Prop :=
  r.name ≠ [] ∧ (∀ c ∈ r.name, nameChar c = true) ∧
  ¬ ("-e".toList <+: r.name) ∧
  WFextras r.extras ∧ WFspecs r.specs ∧
  r.path = [] ∧ r.uri = [] ∧ r.revision = []

/-- Invariants of a parsed version-control requirement. -/
def WFvcs (r : Req) : Prop :=
  r.uri ≠ [] ∧ r.revision ≠ [] ∧ r.name ≠ [] ∧
  '@' ∉ r.uri ∧ '#' ∉ r.uri ∧ '#' ∉ r.revision ∧
  (∀ c, r.uri.head? = some c → c.isWhitespace = false) ∧
  r.extras = [] ∧ r.specs = [] ∧ r.path = []

/-- Invariants of a parsed local-path requirement. -/
def WFlocal (r : Req) : Prop :=
  r.path ≠ [] ∧ pylstrip r.path = r.path ∧ parseVcs r.path = none ∧
  r.name = [] ∧ r.extras = [] ∧ r.specs = [] ∧ r.uri = [] ∧ r.revision = []

/-- The invariant guaranteed by any successful parse. -/
def WF (r : Req) : Prop :=
  match r.kind with
  | ReqKind.registry => WFreg r
  | ReqKind.localPath => WFlocal r
  | ReqKind.versionControlRef => WFvcs r

/-! ## The ordering claimed for `sortedByName` (claim C7)

The claim orders requirements by name and breaks name ties by a
lexicographic comparison of the spec lists as `(operator, version)`
pairs, with an empty spec list before a non-empty one. -/

/-- Lexicographic strict order on one `(operator, version)` pair. -/
def pairLt (a b : LC × LC) : Bool :=
  lexLt a.1 b.1 || (a.1 == b.1 && lexLt a.2 b.2)

/-- Lexicographic strict order on spec lists ( `[] < nonempty` built
in). -/
def specsLt : List (LC × LC) → List (LC × LC) → Bool
  | [], [] => false
  | [], _ :: _ => true
  | _ :: _, [] => false
  | a :: as, b :: bs => pairLt a b || (a == b && specsLt as bs)

/-- The comparison claimed for the persisted order: name first, specs as
tie-break. -/
def claimLe (a b : Req) : Bool :=
  lexLt a.name b.name ||
    (a.name == b.name && (specsLt a.specs b.specs || a.specs == b.specs))

/-- A list sorted the way claim C7 describes. -/
def ClaimC7Sorted (l : List Req) : Prop :=
  l.Pairwise fun a b => claimLe a b = true

/-! ## Helper lemmas: takeWhile and dropWhile -/

theorem length_dropWhile_le (p : α → Bool) (l : List α) :
    (l.dropWhile p).length ≤ l.length := by
  induction l with
  | nil => simp
  | cons c t ih =>
    by_cases h : p c
    · simp only [List.dropWhile_cons, h, if_true]
      exact Nat.le_succ_of_le ih
    · simp [List.dropWhile_cons, h]

theorem dropWhile_eq_self_of_length (p : α → Bool) (l : List α)
    (h : (l.dropWhile p).length = l.length) : l.dropWhile p = l := by
  cases l with
  | nil => simp
  | cons c t =>
    by_cases hc : p c
    · exfalso
      rw [List.dropWhile_cons, if_pos hc] at h
      have := length_dropWhile_le p t
      simp [h] at this
    · rw [List.dropWhile_cons, if_neg hc]

theorem dropWhile_head_false (p : α → Bool) (l : List α) (c : α) (t : List α)
    (h : l.dropWhile p = c :: t) : p c = false := by
  induction l with
  | nil => simp at h
  | cons x xs ih =>
    by_cases hx : p x
    · rw [List.dropWhile_cons, if_pos hx] at h
      exact ih h
    · rw [List.dropWhile_cons, if_neg hx] at h
      cases h
      exact Bool.not_eq_true _ |>.mp hx

theorem dropWhile_idem (p : α → Bool) (l : List α) :
    (l.dropWhile p).dropWhile p = l.dropWhile p := by
  cases hd : l.dropWhile p with
  | nil => simp
  | cons c t =>
    have := dropWhile_head_false p l c t hd
    simp [List.dropWhile_cons, this]

theorem takeWhile_all (p : α → Bool) (l : List α) (h : ∀ a ∈ l, p a = true) :
    l.takeWhile p = l := by
  induction l with
  | nil => simp
  | cons c t ih =>
    rw [List.takeWhile_cons, if_pos (h c (List.mem_cons_self c t))]
    rw [ih fun a ha => h a (List.mem_cons_of_mem c ha)]

theorem takeWhile_append_cons (p : α → Bool) (as : List α) (b : α) (bs : List α)
    (ha : ∀ a ∈ as, p a = true) (hb : p b = false) :
    (as ++ b :: bs).takeWhile p = as := by
  induction as with
  | nil => simp [List.takeWhile_cons, hb]
  | cons c t ih =>
    rw [List.cons_append, List.takeWhile_cons,
      if_pos (ha c (List.mem_cons_self c t))]
    rw [ih fun a hx => ha a (List.mem_cons_of_mem c hx)]

theorem dropWhile_append_cons (p : α → Bool) (as : List α) (b : α) (bs : List α)
    (ha : ∀ a ∈ as, p a = true) (hb : p b = false) :
    (as ++ b :: bs).dropWhile p = b :: bs := by
  induction as with
  | nil => simp [List.dropWhile_cons, hb]
  | cons c t ih =>
    rw [List.cons_append, List.dropWhile_cons,
      if_pos (ha c (List.mem_cons_self c t))]
    exact ih fun a hx => ha a (List.mem_cons_of_mem c hx)

/-! ## Helper lemmas: stripping -/

theorem pylstrip_cons_of_head (c : Char) (t : LC) (h : c.isWhitespace = false) :
    pylstrip (c :: t) = c :: t := by
  simp [pylstrip, List.dropWhile_cons, h]

theorem pylstrip_idem (l : LC) : pylstrip (pylstrip l) = pylstrip l :=
  dropWhile_idem _ l

theorem pylstrip_head (l : LC) (c : Char) (t : LC) (h : pylstrip l = c :: t) :
    c.isWhitespace = false :=
  dropWhile_head_false _ l c t h

theorem pyrstrip_length_le (l : LC) : (pyrstrip l).length ≤ l.length := by
  unfold pyrstrip
  rw [List.length_reverse]
  calc (l.reverse.dropWhile Char.isWhitespace).length
      ≤ l.reverse.length := length_dropWhile_le _ _
    _ = l.length := List.length_reverse l

theorem pyrstrip_eq_self_of_getLast (l : LC)
    (h : ∀ c, l.getLast? = some c → c.isWhitespace = false) : pyrstrip l = l := by
  unfold pyrstrip
  cases hr : l.reverse with
  | nil =>
    have : l = [] := by
      have := congrArg List.reverse hr
      simpa using this
    simp [this]
  | cons c t =>
    have hc : l.getLast? = some c := by
      rw [← List.head?_reverse, hr]
      rfl
    rw [List.dropWhile_cons, if_neg (by simp [h c hc]), ← hr, List.reverse_reverse]

theorem pystrip_eq_self_parts (l : LC) (h : pystrip l = l) :
    pylstrip l = l ∧ pyrstrip l = l := by
  have h1 : (pylstrip l).length ≤ l.length := length_dropWhile_le _ l
  have h2 : (pystrip l).length ≤ (pylstrip l).length := pyrstrip_length_le _
  rw [h] at h2
  have hlen : (pylstrip l).length = l.length := Nat.le_antisymm h1 h2
  have hls : pylstrip l = l := dropWhile_eq_self_of_length _ l hlen
  refine ⟨hls, ?_⟩
  have : pystrip l = pyrstrip l := by rw [pystrip, hls]
  rw [← this, h]

theorem pystrip_head (l : LC) (c : Char) (t : LC) (h : pystrip l = c :: t) :
    c.isWhitespace = false := by
  unfold pystrip pyrstrip at h
  have hpre : (pystrip l) <+: pylstrip l := by
    rw [pystrip, pyrstrip]
    rw [← List.reverse_suffix]
    simp only [List.reverse_reverse]
    exact List.dropWhile_suffix _
  rw [pystrip] at hpre
  unfold pyrstrip at hpre
  rw [h] at hpre
  obtain ⟨t2, ht2⟩ := hpre
  cases hls : pylstrip l with
  | nil => rw [hls] at ht2; simp at ht2
  | cons d ds =>
    rw [hls] at ht2
    have hcd : c = d := by
      have h3 := congrArg List.head? ht2
      simpa using h3
    rw [hcd]
    exact pylstrip_head l d ds hls

theorem pystrip_getLast (l : LC) (c : Char)
    (h : (pystrip l).getLast? = some c) : c.isWhitespace = false := by
  rw [← List.head?_reverse] at h
  unfold pystrip pyrstrip at h
  rw [List.reverse_reverse] at h
  cases hd : (pylstrip l).reverse.dropWhile Char.isWhitespace with
  | nil => rw [hd] at h; simp at h
  | cons d ds =>
    rw [hd] at h
    have hcd : d = c := by simpa using h
    rw [← hcd]
    exact dropWhile_head_false _ _ _ _ hd

theorem mem_pystrip (l : LC) (a : Char) (h : a ∈ pystrip l) : a ∈ l := by
  have h1 : pystrip l <+: pylstrip l := by
    rw [pystrip, pyrstrip, ← List.reverse_suffix]
    simp only [List.reverse_reverse]
    exact List.dropWhile_suffix _
  have h2 : pylstrip l <:+ l := List.dropWhile_suffix _
  exact h2.subset (h1.subset h)

theorem pystrip_space_cons (x : LC) : pystrip (' ' :: x) = pystrip x := by
  unfold pystrip pylstrip
  rw [List.dropWhile_cons, if_pos (by decide)]

theorem pystrip_eq_self_of (l : LC)
    (hh : ∀ c, l.head? = some c → c.isWhitespace = false)
    (hl : ∀ c, l.getLast? = some c → c.isWhitespace = false) :
    pystrip l = l := by
  have hls : pylstrip l = l := by
    cases l with
    | nil => rfl
    | cons c t => exact pylstrip_cons_of_head c t (hh c rfl)
  rw [pystrip, hls]
  exact pyrstrip_eq_self_of_getLast l hl

theorem pystrip_idem (l : LC) : pystrip (pystrip l) = pystrip l := by
  apply pystrip_eq_self_of
  · intro c hc
    cases hd : pystrip l with
    | nil => rw [hd] at hc; simp at hc
    | cons d ds =>
      rw [hd] at hc
      have hcd : d = c := by simpa using hc
      rw [← hcd]
      exact pystrip_head l d ds hd
  · intro c hc
    exact pystrip_getLast l c hc

theorem pyrstrip_append (xs v : LC) (hv : pyrstrip v = v) (hne : v ≠ []) :
    pyrstrip (xs ++ v) = xs ++ v := by
  apply pyrstrip_eq_self_of_getLast
  intro c hc
  rw [List.getLast?_append_of_ne_nil _ hne] at hc
  have hrev : v.reverse.dropWhile Char.isWhitespace = v.reverse := by
    have := congrArg List.reverse hv
    rw [pyrstrip, List.reverse_reverse] at this
    exact this
  cases hr : v.reverse with
  | nil =>
    exfalso
    apply hne
    have := congrArg List.reverse hr
    simpa using this
  | cons d ds =>
    have hcd : d = c := by
      rw [← List.head?_reverse, hr] at hc
      simpa using hc
    rw [hr] at hrev
    by_cases hd : d.isWhitespace
    · exfalso
      rw [List.dropWhile_cons, if_pos hd] at hrev
      have := congrArg List.length hrev
      have hle := length_dropWhile_le Char.isWhitespace ds
      simp at this
      omega
    · rw [← hcd]
      exact Bool.not_eq_true _ |>.mp hd

theorem pylstrip_append (xs w : LC) (h : pylstrip xs = xs) (hne : xs ≠ []) :
    pylstrip (xs ++ w) = xs ++ w := by
  cases xs with
  | nil => exact absurd rfl hne
  | cons c t =>
    have hc : c.isWhitespace = false := by
      by_cases hcw : c.isWhitespace
      · exfalso
        rw [pylstrip, List.dropWhile_cons, if_pos hcw] at h
        have := congrArg List.length h
        have hle := length_dropWhile_le Char.isWhitespace t
        simp at this
        omega
      · exact Bool.not_eq_true _ |>.mp hcw
    rw [List.cons_append]
    exact pylstrip_cons_of_head _ _ hc

/-! ## Helper lemmas: splitting and joining -/

theorem splitOnChar_cons (c x : Char) (xs : LC) :
    splitOnChar c (x :: xs) =
      if x = c then [] :: splitOnChar c xs
      else
        match splitOnChar c xs with
        | [] => [[x]]
        | p :: ps => (x :: p) :: ps := rfl

theorem joinSep_cons2 (sep p q : LC) (qs : List LC) :
    joinSep sep (p :: q :: qs) = p ++ sep ++ joinSep sep (q :: qs) := rfl

theorem splitOnChar_ne_nil (c : Char) (l : LC) : splitOnChar c l ≠ [] := by
  cases l with
  | nil => simp [splitOnChar]
  | cons x xs =>
    unfold splitOnChar
    by_cases h : x = c
    · simp [h]
    · simp only [h, if_false]
      cases splitOnChar c xs <;> simp

theorem splitOnChar_no (c : Char) (l : LC) (h : c ∉ l) : splitOnChar c l = [l] := by
  induction l with
  | nil => rfl
  | cons x xs ih =>
    have hx : ¬ x = c := fun hxc => h (hxc ▸ List.mem_cons_self x xs)
    have hxs : c ∉ xs := fun hmem => h (List.mem_cons_of_mem x hmem)
    unfold splitOnChar
    simp only [hx, if_false, ih hxs]

theorem splitOnChar_append (c : Char) (p t : LC) (h : c ∉ p) :
    splitOnChar c (p ++ c :: t) = p :: splitOnChar c t := by
  induction p with
  | nil => simp [splitOnChar]
  | cons x xs ih =>
    have hx : ¬ x = c := fun hxc => h (hxc ▸ List.mem_cons_self x xs)
    have hxs : c ∉ xs := fun hmem => h (List.mem_cons_of_mem x hmem)
    rw [List.cons_append, splitOnChar_cons, if_neg hx, ih hxs]

theorem mem_splitOnChar (c : Char) (l : LC) (q : LC)
    (h : q ∈ splitOnChar c l) : c ∉ q := by
  induction l generalizing q with
  | nil =>
    simp [splitOnChar] at h
    simp [h]
  | cons x xs ih =>
    unfold splitOnChar at h
    by_cases hx : x = c
    · simp only [hx, if_true] at h
      rcases List.mem_cons.mp h with h1 | h1
      · simp [h1]
      · exact ih q h1
    · simp only [hx, if_false] at h
      cases hs : splitOnChar c xs with
      | nil => exact absurd hs (splitOnChar_ne_nil c xs)
      | cons p ps =>
        rw [hs] at h
        rcases List.mem_cons.mp h with h1 | h1
        · subst h1
          intro hmem
          rcases List.mem_cons.mp hmem with h2 | h2
          · exact hx h2.symm
          · exact ih p (hs ▸ List.mem_cons_self p ps) h2
        · exact ih q (hs ▸ List.mem_cons_of_mem p h1)

theorem mem_joinSep (sep : LC) (ps : List LC) (x : Char)
    (h : x ∈ joinSep sep ps) : x ∈ sep ∨ ∃ p ∈ ps, x ∈ p := by
  induction ps with
  | nil => simp [joinSep] at h
  | cons p ps ih =>
    cases ps with
    | nil =>
      right
      exact ⟨p, List.mem_cons_self p [], by simpa [joinSep] using h⟩
    | cons q qs =>
      rw [joinSep_cons2] at h
      rcases List.mem_append.mp h with h1 | h1
      · rcases List.mem_append.mp h1 with h2 | h2
        · exact Or.inr ⟨p, List.mem_cons_self _ _, h2⟩
        · exact Or.inl h2
      · rcases ih h1 with h2 | ⟨r, hr, hxr⟩
        · exact Or.inl h2
        · exact Or.inr ⟨r, List.mem_cons_of_mem p hr, hxr⟩

/-! ## Helper lemmas: the lexicographic string order -/

theorem lexLt_asymm (a b : LC) (h : lexLt a b = true) : lexLt b a = false := by
  induction a generalizing b with
  | nil =>
    cases b with
    | nil => simp [lexLt] at h
    | cons y ys => simp [lexLt]
  | cons x xs ih =>
    cases b with
    | nil => simp [lexLt] at h
    | cons y ys =>
      unfold lexLt at h ⊢
      by_cases h1 : x.toNat < y.toNat
      · rw [if_neg (by omega), if_pos h1]
      · rw [if_neg h1] at h
        by_cases h2 : y.toNat < x.toNat
        · rw [if_pos h2] at h
          exact absurd h (by simp)
        · rw [if_neg h2] at h
          rw [if_neg h2, if_neg h1]
          exact ih ys h

theorem lexLt_negtrans (a b c : LC) (hab : lexLt a b = false)
    (hbc : lexLt b c = false) : lexLt a c = false := by
  induction a generalizing b c with
  | nil =>
    cases b with
    | nil =>
      cases c with
      | nil => rfl
      | cons z zs => simp [lexLt] at hbc
    | cons y ys => simp [lexLt] at hab
  | cons x xs ih =>
    cases c with
    | nil => rfl
    | cons z zs =>
      cases b with
      | nil => simp [lexLt] at hbc
      | cons y ys =>
        unfold lexLt at hab hbc ⊢
        by_cases h1 : x.toNat < y.toNat
        · rw [if_pos h1] at hab
          exact absurd hab (by simp)
        · rw [if_neg h1] at hab
          by_cases h2 : y.toNat < z.toNat
          · rw [if_pos h2] at hbc
            exact absurd hbc (by simp)
          · rw [if_neg h2] at hbc
            by_cases h3 : y.toNat < x.toNat
            · rw [if_neg (by omega), if_pos (by
                by_cases h4 : z.toNat < y.toNat
                · omega
                · rw [if_neg h4] at hbc
                  omega)]
            · rw [if_neg h3] at hab
              by_cases h4 : z.toNat < y.toNat
              · rw [if_neg (by omega), if_pos (by omega)]
              · rw [if_neg h4] at hbc
                have hxy : x.toNat = y.toNat := by omega
                have hyz : y.toNat = z.toNat := by omega
                rw [if_neg (by omega), if_neg (by omega)]
                exact ih ys zs hab hbc

theorem lexLt_irrefl (a : LC) : lexLt a a = false := by
  by_cases h : lexLt a a = true
  · have := lexLt_asymm a a h
    rw [this] at h
    exact absurd h (by simp)
  · exact Bool.not_eq_true _ |>.mp h

/-! ## Helper lemmas: the stable insertion sort -/

theorem insertS_perm (lt : α → α → Bool) (r : α) (l : List α) :
    (insertS lt r l).Perm (r :: l) := by
  induction l with
  | nil => exact List.Perm.refl _
  | cons y ys ih =>
    unfold insertS
    by_cases h : lt y r
    · rw [if_pos h]
      exact List.Perm.trans (ih.cons y) (List.Perm.swap r y ys)
    · rw [if_neg h]

theorem sortS_perm (lt : α → α → Bool) (l : List α) : (sortS lt l).Perm l := by
  induction l with
  | nil => exact List.Perm.refl _
  | cons x xs ih =>
    exact List.Perm.trans (insertS_perm lt x (sortS lt xs)) (ih.cons x)

theorem insertS_pairwise (r : Req) (l : List Req)
    (hl : l.Pairwise fun a b => lexLt b.name a.name = false) :
    (insertS nameLt r l).Pairwise fun a b => lexLt b.name a.name = false := by
  induction l with
  | nil => exact List.pairwise_singleton _ r
  | cons y ys ih =>
    rw [List.pairwise_cons] at hl
    obtain ⟨hy, hys⟩ := hl
    unfold insertS
    by_cases h : nameLt y r
    · rw [if_pos h]
      rw [List.pairwise_cons]
      refine ⟨?_, ih hys⟩
      intro z hz
      have hz2 : z ∈ r :: ys := (insertS_perm nameLt r ys).mem_iff.mp hz
      rcases List.mem_cons.mp hz2 with h1 | h1
      · subst h1
        exact lexLt_asymm _ _ h
      · exact hy z h1
    · rw [if_neg h]
      rw [List.pairwise_cons]
      have hyr : lexLt y.name r.name = false := by
        unfold nameLt at h
        exact Bool.not_eq_true _ |>.mp h
      refine ⟨?_, List.pairwise_cons.mpr ⟨hy, hys⟩⟩
      intro z hz
      rcases List.mem_cons.mp hz with h1 | h1
      · subst h1
        exact hyr
      · exact lexLt_negtrans _ _ _ (hy z h1) hyr

theorem sortS_pairwise (l : List Req) :
    (sortS nameLt l).Pairwise fun a b => lexLt b.name a.name = false := by
  induction l with
  | nil => exact List.Pairwise.nil
  | cons x xs ih => exact insertS_pairwise x (sortS nameLt xs) ih

theorem insertS_filter_eq (r : Req) (l : List Req) (n : LC)
    (hr : r.name = n) :
    (insertS nameLt r l).filter (fun x => decide (x.name = n)) =
      r :: l.filter (fun x => decide (x.name = n)) := by
  induction l with
  | nil => simp [insertS, List.filter, hr]
  | cons y ys ih =>
    unfold insertS
    by_cases h : nameLt y r
    · rw [if_pos h]
      have hyn : ¬ (y.name = n) := by
        intro hyn
        have : lexLt y.name r.name = true := h
        rw [hyn, hr] at this
        rw [lexLt_irrefl n] at this
        exact absurd this (by simp)
      rw [List.filter_cons, if_neg (by simpa using hyn), ih]
      rw [List.filter_cons, if_neg (by simpa using hyn)]
    · rw [if_neg h]
      rw [List.filter_cons, if_pos (by simpa using hr)]

theorem insertS_filter_ne (r : Req) (l : List Req) (n : LC)
    (hr : ¬ (r.name = n)) :
    (insertS nameLt r l).filter (fun x => decide (x.name = n)) =
      l.filter (fun x => decide (x.name = n)) := by
  induction l with
  | nil => simp [insertS, List.filter, hr]
  | cons y ys ih =>
    unfold insertS
    by_cases h : nameLt y r
    · rw [if_pos h]
      rw [List.filter_cons, List.filter_cons, ih]
    · rw [if_neg h]
      rw [List.filter_cons, if_neg (by simpa using hr)]

theorem sortS_filter (l : List Req) (n : LC) :
    (sortS nameLt l).filter (fun x => decide (x.name = n)) =
      l.filter (fun x => decide (x.name = n)) := by
  induction l with
  | nil => rfl
  | cons x xs ih =>
    show (insertS nameLt x (sortS nameLt xs)).filter _ = _
    by_cases hx : x.name = n
    · rw [insertS_filter_eq x _ n hx, ih, List.filter_cons,
        if_pos (by simpa using hx)]
    · rw [insertS_filter_ne x _ n hx, ih, List.filter_cons,
        if_neg (by simpa using hx)]

/-! ## Helper lemmas: blank and comment lines reach the parser -/

theorem ws_chars (c : Char) (h : c.isWhitespace = true) :
    c = ' ' ∨ c = '\t' ∨ c = '\r' ∨ c = '\n' := by
  unfold Char.isWhitespace at h
  simp at h
  tauto

theorem ws_not_nameChar (c : Char) (h : c.isWhitespace = true) :
    nameChar c = false := by
  rcases ws_chars c h with h1 | h1 | h1 | h1 <;> subst h1 <;> decide

theorem ws_not_dash (c : Char) (h : c.isWhitespace = true) :
    ('-' == c) = false := by
  rcases ws_chars c h with h1 | h1 | h1 | h1 <;> subst h1 <;> decide

theorem all_ws_of_pystrip_nil (l : LC) (h : pystrip l = []) :
    ∀ c ∈ l, c.isWhitespace = true := by
  have h2 : (pylstrip l).reverse.dropWhile Char.isWhitespace = [] := by
    unfold pystrip pyrstrip at h
    have := congrArg List.reverse h
    simpa using this
  have h3 : ∀ c ∈ pylstrip l, c.isWhitespace = true := by
    intro c hc
    exact List.dropWhile_eq_nil_iff.mp h2 c (List.mem_reverse.mpr hc)
  intro c hc
  rw [← List.takeWhile_append_dropWhile Char.isWhitespace l] at hc
  rcases List.mem_append.mp hc with h4 | h4
  · exact List.mem_takeWhile_imp h4
  · exact h3 c h4

theorem parse_skippable_none (l : LC)
    (h : pystrip l = [] ∨ l.head? = some '#') : parseReq l = none := by
  have hpre : isPre "-e".toList l = false := by
    rcases h with hb | hc
    · cases l with
      | nil => rfl
      | cons c t =>
        have hw : c.isWhitespace = true :=
          all_ws_of_pystrip_nil _ hb c (List.mem_cons_self c t)
        show (('-' == c) && isPre ['e'] t) = false
        rw [ws_not_dash c hw, Bool.false_and]
    · cases l with
      | nil => simp at hc
      | cons c t =>
        have : c = '#' := by simpa using hc
        subst this
        rfl
  have hname : l.takeWhile nameChar = [] := by
    rcases h with hb | hc
    · cases l with
      | nil => rfl
      | cons c t =>
        have hw : c.isWhitespace = true :=
          all_ws_of_pystrip_nil _ hb c (List.mem_cons_self c t)
        rw [List.takeWhile_cons, if_neg (by simp [ws_not_nameChar c hw])]
    · cases l with
      | nil => rfl
      | cons c t =>
        have : c = '#' := by simpa using hc
        subst this
        rw [List.takeWhile_cons, if_neg (by decide)]
  unfold parseReq
  rw [hpre]
  simp only [Bool.false_eq_true, if_false]
  unfold parseRegistry
  rw [hname]
  simp

theorem parseAll_error_of_mem (ls : List LC) (l : LC) (hmem : l ∈ ls)
    (hp : parseReq l = none) : ∃ e, parseAll ls = Except.error e := by
  induction ls with
  | nil => simp at hmem
  | cons x xs ih =>
    rcases List.mem_cons.mp hmem with h1 | h1
    · subst h1
      exact ⟨l, by simp [parseAll, hp]⟩
    · cases hx : parseReq x with
      | none => exact ⟨x, by simp [parseAll, hx]⟩
      | some r =>
        obtain ⟨e, he⟩ := ih h1
        exact ⟨e, by simp [parseAll, hx, he]⟩

/-! ## Helper lemmas: add_line first-match behavior -/

theorem addReq_no_match (req : Req) (c : List Req)
    (h : ∀ r ∈ c, lowerL r.name ≠ lowerL req.name) :
    addReq req c = Except.ok (c ++ [req], true) := by
  induction c with
  | nil => rfl
  | cons r rs ih =>
    have hr : ¬ (lowerL req.name = lowerL r.name) :=
      fun he => h r (List.mem_cons_self r rs) he.symm
    simp only [addReq, if_neg hr,
      ih fun x hx => h x (List.mem_cons_of_mem r hx), List.cons_append]

theorem addReq_first_match (req : Req) (pre : List Req) (r : Req)
    (post : List Req)
    (hpre : ∀ x ∈ pre, lowerL x.name ≠ lowerL req.name)
    (hr : lowerL r.name = lowerL req.name) :
    addReq req (pre ++ r :: post) =
      if reqEq req r = true then Except.error AddError.alreadyRequirement
      else Except.ok (pre ++ req :: post, false) := by
  induction pre with
  | nil =>
    rw [List.nil_append, List.nil_append]
    simp only [addReq, if_pos hr.symm]
  | cons x xs ih =>
    have hx : ¬ (lowerL req.name = lowerL x.name) :=
      fun he => hpre x (List.mem_cons_self x xs) he.symm
    rw [List.cons_append, List.cons_append]
    simp only [addReq, if_neg hx]
    rw [ih fun y hy => hpre y (List.mem_cons_of_mem x hy)]
    by_cases hc : reqEq req r = true
    · rw [if_pos hc, if_pos hc]
    · rw [if_neg hc, if_neg hc]

/-! ## Helper lemma: the backup path differs from the target path -/

theorem bakPath_ne (t : LC) : bakPath t ≠ t := by
  intro h
  have h2 := congrArg List.length h
  have h4 : (".bak".toList).length = 4 := rfl
  rw [bakPath, List.length_append, h4] at h2
  omega

/-! ## Helper lemmas: prefix testing and membership through splits -/

theorem isPre_iff (a b : LC) : isPre a b = true ↔ a <+: b := by
  induction a generalizing b with
  | nil => simp [isPre]
  | cons x xs ih =>
    cases b with
    | nil =>
      simp only [isPre]
      constructor
      · intro hf
        exact absurd hf (by simp)
      · intro hp
        have := hp.length_le
        simp at this
    | cons y ys =>
      simp only [isPre, Bool.and_eq_true, beq_iff_eq]
      rw [ih ys]
      constructor
      · rintro ⟨h1, t, ht⟩
        exact ⟨t, by rw [h1, List.cons_append, ht]⟩
      · rintro ⟨t, ht⟩
        rw [List.cons_append] at ht
        cases ht
        exact ⟨rfl, t, rfl⟩

theorem isPre_append_self (a t : LC) : isPre a (a ++ t) = true :=
  (isPre_iff a (a ++ t)).mpr ⟨t, rfl⟩

theorem takeWhile_head (p : α → Bool) (l : List α) (c : α) (t : List α)
    (h : l.takeWhile p = c :: t) : l.head? = some c ∧ p c = true := by
  cases l with
  | nil => simp at h
  | cons x xs =>
    by_cases hx : p x
    · rw [List.takeWhile_cons, if_pos hx] at h
      cases h
      exact ⟨rfl, hx⟩
    · rw [List.takeWhile_cons, if_neg hx] at h
      simp at h

theorem mem_of_mem_splitOnChar (c : Char) (l q : LC) (a : Char)
    (hq : q ∈ splitOnChar c l) (ha : a ∈ q) : a ∈ l := by
  induction l generalizing q with
  | nil =>
    simp [splitOnChar] at hq
    subst hq
    simp at ha
  | cons x xs ih =>
    rw [splitOnChar_cons] at hq
    by_cases hx : x = c
    · rw [if_pos hx] at hq
      rcases List.mem_cons.mp hq with h1 | h1
      · subst h1
        simp at ha
      · exact List.mem_cons_of_mem x (ih q h1 ha)
    · rw [if_neg hx] at hq
      cases hs : splitOnChar c xs with
      | nil => exact absurd hs (splitOnChar_ne_nil c xs)
      | cons p ps =>
        rw [hs] at hq
        rcases List.mem_cons.mp hq with h1 | h1
        · subst h1
          rcases List.mem_cons.mp ha with h2 | h2
          · exact h2 ▸ List.mem_cons_self x xs
          · exact List.mem_cons_of_mem x
              (ih p (hs ▸ List.mem_cons_self p ps) h2)
        · exact List.mem_cons_of_mem x
            (ih q (hs ▸ List.mem_cons_of_mem p h1) ha)

theorem mapOption_mem (f : α → Option β) (l : List α) (l2 : List β)
    (h : mapOption f l = some l2) :
    ∀ y ∈ l2, ∃ x ∈ l, f x = some y := by
  induction l generalizing l2 with
  | nil =>
    cases h
    intro y hy
    simp at hy
  | cons a as ih =>
    unfold mapOption at h
    cases hf : f a with
    | none => rw [hf] at h; simp at h
    | some b =>
      rw [hf] at h
      cases hm : mapOption f as with
      | none => rw [hm] at h; simp at h
      | some bs =>
        rw [hm] at h
        cases h
        intro y hy
        rcases List.mem_cons.mp hy with h1 | h1
        · exact ⟨a, List.mem_cons_self a as, h1 ▸ hf⟩
        · obtain ⟨x, hx, hfx⟩ := ih bs hm y h1
          exact ⟨x, List.mem_cons_of_mem a hx, hfx⟩

theorem opKeys_cases (op : LC) (h : op ∈ opKeys) :
    op = opEQ ∨ op = opGE ∨ op = opLE ∨ op = opGT ∨ op = opLT := by
  simpa [opKeys] using h

theorem specsSetEq_refl (s : List (LC × LC)) : specsSetEq s s = true := by
  simp only [specsSetEq, Bool.and_eq_true, List.all_eq_true]
  exact ⟨fun x hx => by simpa using hx, fun x hx => by simpa using hx⟩

/-! ## Parse establishes the well-formedness invariants -/

theorem parsePair_wf (piece op ver : LC)
    (h : parsePair piece = some (op, ver)) (hc : ',' ∉ piece) :
    op ∈ opKeys ∧ WFver ver := by
  simp only [parsePair] at h
  split_ifs at h with hg
  · simp only [Option.some.injEq, Prod.mk.injEq] at h
    obtain ⟨hop, hver⟩ := h
    subst hop
    subst hver
    refine ⟨hg.1, hg.2, ?_, pystrip_idem _⟩
    intro hmem
    have h1 := mem_pystrip _ _ hmem
    have h2 := (List.dropWhile_suffix _).subset h1
    have h3 := mem_pystrip _ _ h2
    exact hc h3

theorem parseSpecs_wf (s : LC) (specs : List (LC × LC))
    (h : parseSpecs s = some specs) : WFspecs specs := by
  simp only [parseSpecs] at h
  split_ifs at h with ht
  · cases h
    intro sp hsp
    simp at hsp
  · intro sp hsp
    obtain ⟨piece, hpmem, hpp⟩ := mapOption_mem _ _ _ h sp hsp
    have hnc : ',' ∉ piece := mem_splitOnChar ',' _ piece hpmem
    exact parsePair_wf piece sp.1 sp.2 hpp hnc

theorem takeWhile_head_of_head (p : α → Bool) (l : List α) (c : α)
    (h : (l.takeWhile p).head? = some c) : l.head? = some c := by
  cases l with
  | nil => simp at h
  | cons x xs =>
    by_cases hx : p x
    · rw [List.takeWhile_cons, if_pos hx] at h
      simpa using h
    · rw [List.takeWhile_cons, if_neg hx] at h
      simp at h

theorem head_nonspace_of_pylstrip (l : LC) (c : Char)
    (h : pylstrip l = l) (hc : l.head? = some c) : c.isWhitespace = false := by
  cases l with
  | nil => simp at hc
  | cons x xs =>
    have hcx : x = c := by simpa using hc
    subst hcx
    by_cases hw : x.isWhitespace
    · exfalso
      rw [pylstrip, List.dropWhile_cons, if_pos hw] at h
      have h2 := congrArg List.length h
      have hle := length_dropWhile_le Char.isWhitespace xs
      simp at h2
      omega
    · exact Bool.not_eq_true _ |>.mp hw

theorem parseVcs_wf (s uri rev egg : LC)
    (h : parseVcs s = some (uri, rev, egg)) (hs : pylstrip s = s) :
    uri ≠ [] ∧ rev ≠ [] ∧ egg ≠ [] ∧ '@' ∉ uri ∧ '#' ∉ uri ∧ '#' ∉ rev ∧
      (∀ c, uri.head? = some c → c.isWhitespace = false) := by
  simp only [parseVcs] at h
  cases hd : s.dropWhile (fun c => decide (c ≠ '#')) with
  | nil => rw [hd] at h; simp at h
  | cons hc rest =>
    rw [hd] at h
    dsimp only at h
    split_ifs at h with hegg
    cases hpd : (s.takeWhile (fun c => decide (c ≠ '#'))).dropWhile
        (fun c => decide (c ≠ '@')) with
    | nil => rw [hpd] at h; simp at h
    | cons ac rv =>
      rw [hpd] at h
      dsimp only at h
      split_ifs at h with hg
      simp only [Option.some.injEq, Prod.mk.injEq] at h
      obtain ⟨hu, hr, he⟩ := h
      subst hu
      subst hr
      subst he
      obtain ⟨hu1, hr1, he1⟩ := hg
      have hpreMem : ∀ a ∈ s.takeWhile (fun c => decide (c ≠ '#')), a ≠ '#' := by
        intro a ha
        simpa using List.mem_takeWhile_imp ha
      refine ⟨hu1, hr1, he1, ?_, ?_, ?_, ?_⟩
      · intro hmem
        have := List.mem_takeWhile_imp hmem
        simp at this
      · intro hmem
        exact hpreMem '#'
          ((List.takeWhile_prefix _).subset hmem) rfl
      · intro hmem
        have : '#' ∈ (s.takeWhile (fun c => decide (c ≠ '#'))).dropWhile
            (fun c => decide (c ≠ '@')) := by
          rw [hpd]
          exact List.mem_cons_of_mem ac hmem
        exact hpreMem '#' ((List.dropWhile_suffix _).subset this) rfl
      · intro c hcu
        have h1 : (s.takeWhile (fun c => decide (c ≠ '#'))).head? = some c :=
          takeWhile_head_of_head _ _ c hcu
        have h2 : s.head? = some c := takeWhile_head_of_head _ _ c h1
        exact head_nonspace_of_pylstrip s c hs h2

theorem parseRegistry_wf (L : LC) (r : Req) (h : parseRegistry L = some r)
    (hpre : ¬ ("-e".toList <+: L)) : WF r := by
  simp only [parseRegistry] at h
  split_ifs at h with hname
  have hnm : ∀ c ∈ L.takeWhile nameChar, nameChar c = true := by
    intro c hc
    exact List.mem_takeWhile_imp hc
  have hnp : ¬ ("-e".toList <+: L.takeWhile nameChar) := by
    intro hp
    exact hpre (hp.trans (List.takeWhile_prefix nameChar))
  cases hd : L.dropWhile nameChar with
  | nil =>
    rw [hd] at h
    have hps : parseSpecs [] = some [] := rfl
    rw [hps] at h
    simp only [Option.map_some'] at h
    cases h
    exact ⟨hname, hnm, hnp, fun e he => by simp at he,
      fun sp hsp => by simp at hsp, rfl, rfl, rfl⟩
  | cons c rest =>
    rw [hd] at h
    dsimp only at h
    split_ifs at h with hbr
    · cases hrd : rest.dropWhile (fun x => decide (x ≠ ']')) with
      | nil => rw [hrd] at h; simp at h
      | cons d tail =>
        rw [hrd] at h
        dsimp only at h
        cases hps : parseSpecs tail with
        | none => rw [hps] at h; simp at h
        | some specs =>
          rw [hps] at h
          simp only [Option.map_some'] at h
          cases h
          refine ⟨hname, hnm, hnp, ?_, parseSpecs_wf tail specs hps,
            rfl, rfl, rfl⟩
          intro e he
          obtain ⟨q, hq, hpq⟩ := List.mem_map.mp he
          subst hpq
          refine ⟨?_, ?_, pystrip_idem q⟩
          · intro hmem
            exact mem_splitOnChar ',' _ q hq (mem_pystrip _ _ hmem)
          · intro hmem
            have h1 : ']' ∈ rest.takeWhile (fun x => decide (x ≠ ']')) :=
              mem_of_mem_splitOnChar ',' _ q ']' hq (mem_pystrip _ _ hmem)
            have := List.mem_takeWhile_imp h1
            simp at this
    · cases hps : parseSpecs (c :: rest) with
      | none => rw [hps] at h; simp at h
      | some specs =>
        rw [hps] at h
        simp only [Option.map_some'] at h
        cases h
        exact ⟨hname, hnm, hnp, fun e he => by simp at he,
          parseSpecs_wf _ specs hps, rfl, rfl, rfl⟩

theorem parseReq_wf (L : LC) (r : Req) (h : parseReq L = some r) : WF r := by
  simp only [parseReq] at h
  by_cases hpre : isPre "-e".toList L = true
  · rw [if_pos hpre] at h
    cases hv : parseVcs (pylstrip (L.drop 2)) with
    | some v =>
      obtain ⟨uri, rev, egg⟩ := v
      rw [hv] at h
      cases h
      have hw := parseVcs_wf _ uri rev egg hv (pylstrip_idem _)
      exact ⟨hw.1, hw.2.1, hw.2.2.1, hw.2.2.2.1, hw.2.2.2.2.1,
        hw.2.2.2.2.2.1, hw.2.2.2.2.2.2, rfl, rfl, rfl⟩
    | none =>
      rw [hv] at h
      split_ifs at h with hne
      cases h
      exact ⟨hne, pylstrip_idem _, hv, rfl, rfl, rfl, rfl, rfl⟩
  · rw [if_neg hpre] at h
    exact parseRegistry_wf L r h fun hp => hpre ((isPre_iff _ _).mpr hp)

/-! ## Serialization produces parseable text: spec pairs -/

theorem op_facts (op : LC) (h : op ∈ opKeys) :
    op ≠ [] ∧ (∀ c ∈ op, opChar c = true) ∧ ',' ∉ op ∧ pylstrip op = op := by
  rcases opKeys_cases op h with h1 | h1 | h1 | h1 | h1 <;> subst h1 <;>
    exact ⟨by decide, by decide, by decide, by decide⟩

theorem clean_piece (op ver : LC) (hop : op ∈ opKeys) (hv : WFver ver) :
    pystrip (op ++ ' ' :: ver) = op ++ ' ' :: ver := by
  obtain ⟨hne, hv2, hv3⟩ := hv
  obtain ⟨hvl, hvr⟩ := pystrip_eq_self_parts ver hv3
  obtain ⟨hone, _, _, hol⟩ := op_facts op hop
  have hl : pylstrip (op ++ ' ' :: ver) = op ++ ' ' :: ver :=
    pylstrip_append op _ hol hone
  have hr : pyrstrip (op ++ ' ' :: ver) = op ++ ' ' :: ver := by
    have ha : op ++ ' ' :: ver = (op ++ [' ']) ++ ver := by simp
    rw [ha, pyrstrip_append _ ver hvr hne, ← ha]
  rw [pystrip, hl, hr]

theorem clean_join : ∀ pieces : List LC,
    (∀ q ∈ pieces, q ≠ [] ∧ pystrip q = q) → pieces ≠ [] →
    joinSep [','] pieces ≠ [] ∧
      pystrip (joinSep [','] pieces) = joinSep [','] pieces := by
  intro pieces
  induction pieces with
  | nil => intro _ hne; exact absurd rfl hne
  | cons q ws ih =>
    intro h _
    have hq := h q (List.mem_cons_self q ws)
    cases ws with
    | nil => exact ⟨hq.1, hq.2⟩
    | cons w ws2 =>
      obtain ⟨hJne, hJ⟩ := ih (fun x hx => h x (List.mem_cons_of_mem q hx))
        (by simp)
      obtain ⟨hql, hqr⟩ := pystrip_eq_self_parts q hq.2
      obtain ⟨hJl, hJr⟩ := pystrip_eq_self_parts _ hJ
      rw [joinSep_cons2]
      constructor
      · simp [hq.1]
      · have hl : pylstrip (q ++ [','] ++ joinSep [','] (w :: ws2))
            = q ++ [','] ++ joinSep [','] (w :: ws2) := by
          rw [List.append_assoc]
          rw [pylstrip_append q _ hql hq.1]
        have hr : pyrstrip (q ++ [','] ++ joinSep [','] (w :: ws2))
            = q ++ [','] ++ joinSep [','] (w :: ws2) :=
          pyrstrip_append _ _ hJr hJne
        rw [pystrip, hl, hr]

theorem split_join : ∀ pieces : List LC,
    (∀ q ∈ pieces, ',' ∉ q) → pieces ≠ [] →
    splitOnChar ',' (joinSep [','] pieces) = pieces := by
  intro pieces
  induction pieces with
  | nil => intro _ hne; exact absurd rfl hne
  | cons q ws ih =>
    intro h _
    have hq := h q (List.mem_cons_self q ws)
    cases ws with
    | nil => exact splitOnChar_no ',' q hq
    | cons w ws2 =>
      rw [joinSep_cons2]
      have ha : q ++ [','] ++ joinSep [','] (w :: ws2)
          = q ++ ',' :: joinSep [','] (w :: ws2) := by simp
      rw [ha, splitOnChar_append ',' q _ hq,
        ih (fun x hx => h x (List.mem_cons_of_mem q hx)) (by simp)]

theorem parsePair_roundtrip (op ver : LC) (hop : op ∈ opKeys) (hv : WFver ver) :
    parsePair (op ++ ' ' :: ver) = some (op, ver) := by
  obtain ⟨hne, hv2, hv3⟩ := hv
  obtain ⟨hvl, hvr⟩ := pystrip_eq_self_parts ver hv3
  obtain ⟨hone, hoc, _, _⟩ := op_facts op hop
  simp only [parsePair]
  rw [clean_piece op ver hop ⟨hne, hv2, hv3⟩]
  rw [takeWhile_append_cons opChar op ' ' ver hoc (by decide)]
  rw [dropWhile_append_cons opChar op ' ' ver hoc (by decide)]
  rw [pystrip_space_cons, hv3]
  rw [if_pos ⟨hop, hne⟩]

theorem mapOption_pieces : ∀ specs : List (LC × LC), WFspecs specs →
    mapOption parsePair (specs.map fun sp => sp.1 ++ ' ' :: sp.2)
      = some specs := by
  intro specs
  induction specs with
  | nil => intro _; rfl
  | cons p ps ih =>
    intro h
    have hp := h p (List.mem_cons_self p ps)
    rw [List.map_cons]
    simp only [mapOption]
    rw [parsePair_roundtrip p.1 p.2 hp.1 hp.2,
      ih fun sp hsp => h sp (List.mem_cons_of_mem p hsp)]

theorem piece_facts (op ver : LC) (hop : op ∈ opKeys) (hv : WFver ver) :
    (op ++ ' ' :: ver) ≠ [] ∧ pystrip (op ++ ' ' :: ver) = op ++ ' ' :: ver ∧
      ',' ∉ (op ++ ' ' :: ver) := by
  obtain ⟨hone, _, hoc, _⟩ := op_facts op hop
  refine ⟨by simp [hone], clean_piece op ver hop hv, ?_⟩
  intro hmem
  rcases List.mem_append.mp hmem with h1 | h1
  · exact hoc h1
  · rcases List.mem_cons.mp h1 with h2 | h2
    · simp at h2
    · exact hv.2.1 h2

theorem parseSpecs_roundtrip (specs : List (LC × LC)) (h : WFspecs specs) :
    parseSpecs (' ' :: spec_string specs) = some specs := by
  cases specs with
  | nil => rfl
  | cons p ps =>
    have hpieces : ∀ q ∈ (p :: ps).map (fun sp => sp.1 ++ ' ' :: sp.2),
        q ≠ [] ∧ pystrip q = q ∧ ',' ∉ q := by
      intro q hq
      obtain ⟨sp, hsp, hq2⟩ := List.mem_map.mp hq
      subst hq2
      have hw := h sp hsp
      exact piece_facts sp.1 sp.2 hw.1 hw.2
    have hne : (p :: ps).map (fun sp => sp.1 ++ ' ' :: sp.2) ≠ [] := by simp
    obtain ⟨hJne, hJ⟩ := clean_join _
      (fun q hq => ⟨(hpieces q hq).1, (hpieces q hq).2.1⟩) hne
    simp only [parseSpecs, spec_string]
    rw [pystrip_space_cons, hJ, if_neg hJne]
    rw [split_join _ (fun q hq => (hpieces q hq).2.2) hne]
    exact mapOption_pieces (p :: ps) h

/-! ## Serialization produces parseable text: extras -/

theorem splitOnChar_space_map (x : LC) :
    (splitOnChar ',' (' ' :: x)).map pystrip
      = (splitOnChar ',' x).map pystrip := by
  rw [splitOnChar_cons, if_neg (by decide)]
  cases hs : splitOnChar ',' x with
  | nil => exact absurd hs (splitOnChar_ne_nil ',' x)
  | cons p ps => simp [pystrip_space_cons]

theorem extras_roundtrip : ∀ es : List LC, WFextras es → es ≠ [] →
    (splitOnChar ',' (joinSep [',', ' '] es)).map pystrip = es := by
  intro es
  induction es with
  | nil => intro _ hne; exact absurd rfl hne
  | cons e fs ih =>
    intro h _
    have he := h e (List.mem_cons_self e fs)
    cases fs with
    | nil =>
      rw [show joinSep [',', ' '] [e] = e from rfl,
        splitOnChar_no ',' e he.1, List.map_singleton, he.2.2]
    | cons f fs2 =>
      rw [joinSep_cons2]
      have ha : e ++ [',', ' '] ++ joinSep [',', ' '] (f :: fs2)
          = e ++ ',' :: (' ' :: joinSep [',', ' '] (f :: fs2)) := by simp
      rw [ha, splitOnChar_append ',' e _ he.1, List.map_cons,
        splitOnChar_space_map,
        ih (fun x hx => h x (List.mem_cons_of_mem e hx)) (by simp), he.2.2]

/-! ## Serialization produces parseable text: the three line shapes -/

theorem not_dashE (name rest : LC) (h1 : name ≠ [])
    (h3 : ¬ ("-e".toList <+: name))
    (hr : ∀ c, rest.head? = some c → ('e' == c) = false) :
    isPre "-e".toList (name ++ rest) = false := by
  cases name with
  | nil => exact absurd rfl h1
  | cons c1 t =>
    cases t with
    | nil =>
      by_cases hc : ('-' == c1) = true
      · cases rest with
        | nil =>
          show (('-' == c1) && isPre ['e'] []) = false
          simp [isPre]
        | cons d ds =>
          show (('-' == c1) && (('e' == d) && isPre [] ds)) = false
          rw [hr d rfl]
          simp
      · show (('-' == c1) && isPre ['e'] rest) = false
        rw [Bool.not_eq_true] at hc
        rw [hc]
        simp
    | cons c2 t2 =>
      show (('-' == c1) && (('e' == c2) && isPre [] (t2 ++ rest))) = false
      by_cases hc1 : c1 = '-'
      · by_cases hc2 : c2 = 'e'
        · exfalso
          apply h3
          subst hc1
          subst hc2
          exact ⟨t2, rfl⟩
        · have he2 : ('e' == c2) = false := by
            simp [beq_eq_false_iff_ne, Ne.symm hc2]
          rw [he2]
          simp
      · have he1 : ('-' == c1) = false := by
          simp [beq_eq_false_iff_ne, Ne.symm hc1]
        rw [he1]
        simp

theorem registry_roundtrip (name : LC) (extras : List LC)
    (specs : List (LC × LC))
    (h1 : name ≠ []) (h2 : ∀ c ∈ name, nameChar c = true)
    (h3 : ¬ ("-e".toList <+: name))
    (h4 : WFextras extras) (h5 : WFspecs specs) :
    parseReq (to_str ⟨name, extras, specs, ReqKind.registry, [], [], []⟩)
      = some ⟨name, extras, specs, ReqKind.registry, [], [], []⟩ := by
  by_cases hne : extras = []
  · subst hne
    have hshape : to_str ⟨name, [], specs, ReqKind.registry, [], [], []⟩
        = name ++ ' ' :: spec_string specs := by
      simp [to_str]
    rw [hshape]
    have hpre : isPre "-e".toList (name ++ ' ' :: spec_string specs) = false := by
      refine not_dashE name _ h1 h3 fun c hc => ?_
      have hcs : ' ' = c := by simpa using hc
      subst hcs
      decide
    simp only [parseReq]
    rw [hpre]
    simp only [Bool.false_eq_true, if_false]
    simp only [parseRegistry]
    rw [takeWhile_append_cons nameChar name ' ' _ h2 (by decide)]
    rw [dropWhile_append_cons nameChar name ' ' _ h2 (by decide)]
    rw [if_neg h1]
    dsimp only
    rw [if_neg (by decide : ¬ (' ' = '['))]
    rw [parseSpecs_roundtrip specs h5]
    rfl
  · have hshape : to_str ⟨name, extras, specs, ReqKind.registry, [], [], []⟩
        = name ++ '[' :: (joinSep [',', ' '] extras ++
            ']' :: ' ' :: spec_string specs) := by
      simp only [to_str]
      rw [if_neg hne]
      simp
    rw [hshape]
    have hpre : isPre "-e".toList (name ++ '[' ::
        (joinSep [',', ' '] extras ++ ']' :: ' ' :: spec_string specs))
        = false := by
      refine not_dashE name _ h1 h3 fun c hc => ?_
      have hcs : '[' = c := by simpa using hc
      subst hcs
      decide
    have hJmem : ∀ a ∈ joinSep [',', ' '] extras, decide (a ≠ ']') = true := by
      intro a ha
      rcases mem_joinSep _ _ a ha with hsep | ⟨e, he, hae⟩
      · rcases List.mem_cons.mp hsep with hs1 | hs1
        · subst hs1; decide
        · have : a = ' ' := by simpa using hs1
          subst this; decide
      · have : a ≠ ']' := fun hae2 => (h4 e he).2.1 (hae2 ▸ hae)
        simpa using this
    simp only [parseReq]
    rw [hpre]
    simp only [Bool.false_eq_true, if_false]
    simp only [parseRegistry]
    rw [takeWhile_append_cons nameChar name '[' _ h2 (by decide)]
    rw [dropWhile_append_cons nameChar name '[' _ h2 (by decide)]
    rw [if_neg h1]
    dsimp only
    rw [if_pos rfl]
    rw [takeWhile_append_cons _ (joinSep [',', ' '] extras) ']' _ hJmem
      (by decide)]
    rw [dropWhile_append_cons _ (joinSep [',', ' '] extras) ']' _ hJmem
      (by decide)]
    dsimp only
    rw [extras_roundtrip extras h4 hne]
    rw [parseSpecs_roundtrip specs h5]
    rfl

theorem vcs_roundtrip (uri rev egg : LC)
    (h1 : uri ≠ []) (h2 : rev ≠ []) (h3 : egg ≠ [])
    (h4 : '@' ∉ uri) (h5 : '#' ∉ uri) (h6 : '#' ∉ rev)
    (h7 : ∀ c, uri.head? = some c → c.isWhitespace = false) :
    parseReq (to_str ⟨egg, [], [], ReqKind.versionControlRef, [], uri, rev⟩)
      = some ⟨egg, [], [], ReqKind.versionControlRef, [], uri, rev⟩ := by
  have hshape : to_str ⟨egg, [], [], ReqKind.versionControlRef, [], uri, rev⟩
      = "-e ".toList ++
          ((uri ++ '@' :: rev) ++ '#' :: ("egg=".toList ++ egg)) := by
    simp only [to_str]
    simp [List.append_assoc]
  rw [hshape]
  simp only [parseReq]
  rw [show isPre "-e".toList ("-e ".toList ++
      ((uri ++ '@' :: rev) ++ '#' :: ("egg=".toList ++ egg))) = true from rfl]
  rw [if_pos rfl]
  have hdrop : pylstrip ((("-e ".toList ++
      ((uri ++ '@' :: rev) ++ '#' :: ("egg=".toList ++ egg))) : LC).drop 2)
      = (uri ++ '@' :: rev) ++ '#' :: ("egg=".toList ++ egg) := by
    show pylstrip (' ' :: ((uri ++ '@' :: rev) ++ '#' :: ("egg=".toList ++ egg)))
      = (uri ++ '@' :: rev) ++ '#' :: ("egg=".toList ++ egg)
    rw [pylstrip, List.dropWhile_cons, if_pos (by decide)]
    obtain ⟨c, us, hcu⟩ := List.exists_cons_of_ne_nil h1
    have hhead : c.isWhitespace = false := h7 c (by rw [hcu]; rfl)
    rw [hcu]
    show List.dropWhile Char.isWhitespace
      (c :: ((us ++ '@' :: rev) ++ '#' :: ("egg=".toList ++ egg))) = _
    rw [List.dropWhile_cons, if_neg (by simp [hhead])]
    simp
  rw [hdrop]
  have hvcs : parseVcs ((uri ++ '@' :: rev) ++ '#' :: ("egg=".toList ++ egg))
      = some (uri, rev, egg) := by
    have hmem1 : ∀ a ∈ uri ++ '@' :: rev, decide (a ≠ '#') = true := by
      intro a ha
      have hane : a ≠ '#' := by
        rcases List.mem_append.mp ha with hu | hv
        · exact fun he => h5 (he ▸ hu)
        · rcases List.mem_cons.mp hv with hv1 | hv1
          · subst hv1; decide
          · exact fun he => h6 (he ▸ hv1)
      simpa using hane
    have hmem2 : ∀ a ∈ uri, decide (a ≠ '@') = true := by
      intro a ha
      have : a ≠ '@' := fun he => h4 (he ▸ ha)
      simpa using this
    simp only [parseVcs]
    rw [takeWhile_append_cons _ (uri ++ '@' :: rev) '#' _ hmem1 (by decide)]
    rw [dropWhile_append_cons _ (uri ++ '@' :: rev) '#' _ hmem1 (by decide)]
    dsimp only
    rw [isPre_append_self "egg=".toList egg]
    rw [if_pos rfl]
    rw [takeWhile_append_cons _ uri '@' rev hmem2 (by decide)]
    rw [dropWhile_append_cons _ uri '@' rev hmem2 (by decide)]
    dsimp only
    rw [if_pos ⟨h1, h2, h3⟩]
    rw [show List.drop 4 ("egg=".toList ++ egg) = egg from
      List.drop_left "egg=".toList egg]
  rw [hvcs]

theorem local_roundtrip (path : LC) (h1 : path ≠ [])
    (h2 : pylstrip path = path) (h3 : parseVcs path = none) :
    parseReq (to_str ⟨[], [], [], ReqKind.localPath, path, [], []⟩)
      = some ⟨[], [], [], ReqKind.localPath, path, [], []⟩ := by
  have hshape : to_str ⟨[], [], [], ReqKind.localPath, path, [], []⟩
      = "-e ".toList ++ path := by
    simp [to_str]
  rw [hshape]
  simp only [parseReq]
  rw [show isPre "-e".toList ("-e ".toList ++ path) = true from rfl]
  rw [if_pos rfl]
  have hdrop : pylstrip ((("-e ".toList ++ path) : LC).drop 2) = path := by
    show pylstrip (' ' :: path) = path
    rw [pylstrip, List.dropWhile_cons, if_pos (by decide)]
    exact h2
  rw [hdrop, h3]
  dsimp only
  rw [if_pos h1]

/-! ## The full round trip -/

theorem toStr_roundtrip (r : Req) (h : WF r) : parseReq (to_str r) = some r := by
  obtain ⟨name, extras, specs, kind, path, uri, rev⟩ := r
  cases kind with
  | registry =>
    have hw : WFreg ⟨name, extras, specs, ReqKind.registry, path, uri, rev⟩ := h
    unfold WFreg at hw
    dsimp only at hw
    obtain ⟨g1, g2, g3, g4, g5, g6, g7, g8⟩ := hw
    subst g6
    subst g7
    subst g8
    exact registry_roundtrip name extras specs g1 g2 g3 g4 g5
  | localPath =>
    have hw : WFlocal ⟨name, extras, specs, ReqKind.localPath, path, uri, rev⟩ := h
    unfold WFlocal at hw
    dsimp only at hw
    obtain ⟨g1, g2, g3, g4, g5, g6, g7, g8⟩ := hw
    subst g4
    subst g5
    subst g6
    subst g7
    subst g8
    exact local_roundtrip path g1 g2 g3
  | versionControlRef =>
    have hw : WFvcs ⟨name, extras, specs, ReqKind.versionControlRef, path, uri, rev⟩ := h
    unfold WFvcs at hw
    dsimp only at hw
    obtain ⟨g1, g2, g3, g4, g5, g6, g7, g8, g9, g10⟩ := hw
    subst g8
    subst g9
    subst g10
    exact vcs_roundtrip uri rev name g1 g2 g3 g4 g5 g6 g7

/-- C6: for every well-formed requirement line, parsing it, serializing
the result to its canonical no-color string form, and parsing that
string again yields a requirement structurally equal to the first parse
(same specs set and same kind; in fact the very same parsed value). -/
theorem c6_parse_serialize_roundtrip (L : LC) (r : Req)
    (h : parseReq L = some r) :
    ∃ r2 : Req, parseReq (to_str r) = some r2 ∧
      specsSetEq r2.specs r.specs = true ∧ r2.kind = r.kind :=
  ⟨r, toStr_roundtrip r (parseReq_wf L r h), specsSetEq_refl _, rfl⟩

/-- Witness for C6 at the concrete line `foo[bar] >= 1.0,<2`. -/
theorem c6_parse_serialize_roundtrip_witness :
    ∃ r2 : Req,
      parseReq (to_str ⟨"foo".toList, ["bar".toList],
          [(opGE, "1.0".toList), (opLT, "2".toList)],
          ReqKind.registry, [], [], []⟩) = some r2 ∧
      specsSetEq r2.specs
          (Req.specs ⟨"foo".toList, ["bar".toList],
            [(opGE, "1.0".toList), (opLT, "2".toList)],
            ReqKind.registry, [], [], []⟩) = true ∧
      r2.kind = Req.kind ⟨"foo".toList, ["bar".toList],
          [(opGE, "1.0".toList), (opLT, "2".toList)],
          ReqKind.registry, [], [], []⟩ :=
  c6_parse_serialize_roundtrip "foo[bar] >= 1.0,<2".toList
    ⟨"foo".toList, ["bar".toList],
      [(opGE, "1.0".toList), (opLT, "2".toList)],
      ReqKind.registry, [], [], []⟩ (by decide)

/-! ## Claims C1 and C8: the safe persistence writer -/

/-- C1 counterexample: a write to target `t` (pre-write content `old`)
that fails after writing only `ne` leaves the target holding `ne` — not
its pre-write content — while the backup at `t.bak` holds `old`.  The
claim's assertion that the target itself stays byte-identical is false;
only the backup preserves the pre-write bytes. -/
theorem c1_target_not_restored :
    (emptyFS.setFile "t".toList "old".toList) "t".toList = some "old".toList ∧
    (safeWrite (emptyFS.setFile "t".toList "old".toList) "t".toList
        "new".toList (WriteAttempt.failsAfter "ne".toList)).fs "t".toList
      = some "ne".toList ∧
    some "ne".toList ≠ some "old".toList ∧
    (safeWrite (emptyFS.setFile "t".toList "old".toList) "t".toList
        "new".toList (WriteAttempt.failsAfter "ne".toList)).fs
        (bakPath "t".toList)
      = some "old".toList := by
  refine ⟨rfl, rfl, by decide, rfl⟩

/-- C1 amended: if a write to an existing target fails after the backup
copy was created, the failure is reported together with the backup path,
the backup file `<target>.bak` still holds content byte-identical to the
target's pre-write content, and the target itself holds whatever the
failed write left behind (it is not rolled back). -/
theorem c1_backup_retained_on_failure (fs : FS) (t orig content w : LC)
    (h : fs t = some orig) :
    (safeWrite fs t content (WriteAttempt.failsAfter w)).err
        = some (WriteError.writeFailed (some (bakPath t))) ∧
    (safeWrite fs t content (WriteAttempt.failsAfter w)).fs (bakPath t)
        = some orig ∧
    (safeWrite fs t content (WriteAttempt.failsAfter w)).fs t = some w := by
  have hb : file_backup fs t = (fs.setFile (bakPath t) orig, some (bakPath t)) := by
    unfold file_backup
    rw [h]
  unfold safeWrite
  rw [hb]
  refine ⟨rfl, ?_, ?_⟩
  · simp [FS.setFile, bakPath_ne t]
  · simp [FS.setFile]

/-- Witness for C1 at a concrete file system. -/
theorem c1_backup_retained_on_failure_witness :
    (safeWrite (emptyFS.setFile "f".toList "v1".toList) "f".toList
        "v2".toList (WriteAttempt.failsAfter "v".toList)).err
      = some (WriteError.writeFailed (some (bakPath "f".toList))) ∧
    (safeWrite (emptyFS.setFile "f".toList "v1".toList) "f".toList
        "v2".toList (WriteAttempt.failsAfter "v".toList)).fs
        (bakPath "f".toList) = some "v1".toList ∧
    (safeWrite (emptyFS.setFile "f".toList "v1".toList) "f".toList
        "v2".toList (WriteAttempt.failsAfter "v".toList)).fs "f".toList
      = some "v".toList :=
  c1_backup_retained_on_failure (emptyFS.setFile "f".toList "v1".toList)
    "f".toList "v1".toList "v2".toList "v".toList rfl

/-- C8: a successful write to a target that did not previously exist (and
with no stray `<target>.bak` sibling) does not terminate normally — after
writing the content, `file_backup_remove` reads the never-assigned
attribute `self.backed_up` and raises `AttributeError`.  A successful
write over an existing target does terminate normally with the backup
removed, as the claim describes. -/
theorem c8_write_new_target_attribute_error :
    (safeWrite emptyFS "t".toList "x".toList WriteAttempt.completes).err
        = some WriteError.attributeError ∧
    (safeWrite emptyFS "t".toList "x".toList WriteAttempt.completes).fs
        "t".toList = some "x".toList ∧
    (safeWrite (emptyFS.setFile "t".toList "old".toList) "t".toList
        "x".toList WriteAttempt.completes).err = none ∧
    (safeWrite (emptyFS.setFile "t".toList "old".toList) "t".toList
        "x".toList WriteAttempt.completes).fs (bakPath "t".toList)
      = none := by
  refine ⟨rfl, rfl, rfl, rfl⟩

/-! ## Claim C2: add_line acts on the first name match only -/

/-- C2 counterexample: in a collection holding two entries named `a`
(specs `>= 1` and `>= 2`), adding the line `a >= 2` — whose specs set
equals the second entry's — does not fail: the code replaces the FIRST
name match (index 0) and reports Replaced, even though an entry with the
same name and an equal specs set exists. -/
theorem c2_first_match_counterexample :
    add_line
        [⟨"a".toList, [], [(opGE, "1".toList)], ReqKind.registry, [], [], []⟩,
         ⟨"a".toList, [], [(opGE, "2".toList)], ReqKind.registry, [], [], []⟩]
        "a >= 2".toList
      = Except.ok
          ([⟨"a".toList, [], [(opGE, "2".toList)], ReqKind.registry, [], [], []⟩,
            ⟨"a".toList, [], [(opGE, "2".toList)], ReqKind.registry, [], [], []⟩],
           false) ∧
    (∃ r ∈
        [(⟨"a".toList, [], [(opGE, "1".toList)], ReqKind.registry, [], [], []⟩ : Req),
         ⟨"a".toList, [], [(opGE, "2".toList)], ReqKind.registry, [], [], []⟩],
      lowerL r.name = lowerL "a".toList ∧
        specsSetEq r.specs [(opGE, "2".toList)] = true) := by
  refine ⟨rfl, ?_⟩
  refine ⟨⟨"a".toList, [], [(opGE, "2".toList)], ReqKind.registry, [], [], []⟩,
    by decide, by decide, by decide⟩

/-- C2 amended: `add_line` decides on the first entry whose lowercased
name matches the parsed requirement's: with no name match the
requirement is appended (Added); at the first match it either fails with
an error when the specs sets are equal (collection unchanged) or
replaces that entry in place, preserving its position (Replaced).
Entries after the first match are never consulted. -/
theorem c2_add_line_first_match (line : LC) (req : Req)
    (h : parseReq line = some req) :
    (∀ c : List Req, (∀ r ∈ c, lowerL r.name ≠ lowerL req.name) →
        add_line c line = Except.ok (c ++ [req], true)) ∧
    (∀ pre : List Req, ∀ r : Req, ∀ post : List Req,
        (∀ x ∈ pre, lowerL x.name ≠ lowerL req.name) →
        lowerL r.name = lowerL req.name →
        ((reqEq req r = true →
            add_line (pre ++ r :: post) line
              = Except.error AddError.alreadyRequirement) ∧
         (reqEq req r = false →
            add_line (pre ++ r :: post) line
              = Except.ok (pre ++ req :: post, false)))) := by
  constructor
  · intro c hc
    simp only [add_line, h]
    exact addReq_no_match req c hc
  · intro pre r post hpre hr
    constructor
    · intro he
      simp only [add_line, h]
      rw [addReq_first_match req pre r post hpre hr, if_pos he]
    · intro he
      simp only [add_line, h]
      rw [addReq_first_match req pre r post hpre hr, if_neg (by simp [he])]

/-- Witness for C2: adding `b == 1` to an empty collection appends it. -/
theorem c2_add_line_first_match_witness :
    add_line [] "b == 1".toList
      = Except.ok
          ([⟨"b".toList, [], [(opEQ, "1".toList)], ReqKind.registry, [], [], []⟩],
           true) :=
  (c2_add_line_first_match "b == 1".toList
      ⟨"b".toList, [], [(opEQ, "1".toList)], ReqKind.registry, [], [], []⟩
      (by decide)).1 [] (by simp)

/-! ## Claim C7: the persisted sort is by name only -/

/-- C7 counterexample: two entries share the name `a` with specs
`>= 2` and `>= 1` in that input order; the sort used by `write`
(`key=lambda r: r.name`) leaves them in input order, so the output is
not ordered by the claimed specs tie-break (the first entry's specs are
lexicographically greater than the second's). -/
theorem c7_sort_counterexample :
    sortByName
        [⟨"a".toList, [], [(opGE, "2".toList)], ReqKind.registry, [], [], []⟩,
         ⟨"a".toList, [], [(opGE, "1".toList)], ReqKind.registry, [], [], []⟩]
      = [⟨"a".toList, [], [(opGE, "2".toList)], ReqKind.registry, [], [], []⟩,
         ⟨"a".toList, [], [(opGE, "1".toList)], ReqKind.registry, [], [], []⟩] ∧
    ¬ ClaimC7Sorted
        (sortByName
          [⟨"a".toList, [], [(opGE, "2".toList)], ReqKind.registry, [], [], []⟩,
           ⟨"a".toList, [], [(opGE, "1".toList)], ReqKind.registry, [], [], []⟩]) := by
  constructor
  · decide
  · intro hs
    rw [(by decide : sortByName
        [⟨"a".toList, [], [(opGE, "2".toList)], ReqKind.registry, [], [], []⟩,
         ⟨"a".toList, [], [(opGE, "1".toList)], ReqKind.registry, [], [], []⟩]
      = [⟨"a".toList, [], [(opGE, "2".toList)], ReqKind.registry, [], [], []⟩,
         ⟨"a".toList, [], [(opGE, "1".toList)], ReqKind.registry, [], [], []⟩])] at hs
    unfold ClaimC7Sorted at hs
    rw [List.pairwise_cons] at hs
    have := hs.1 _ (List.mem_cons_self _ _)
    exact absurd this (by decide)

/-- C7 amended: the sort `write` performs
(`sorted(self, key=lambda r: r.name)`) is a stable sort by name only:
the output is a permutation of the input, names are in nondecreasing
order, and entries with any given name keep their relative input order;
specs play no part in the order. -/
theorem c7_sort_stable_by_name_only (l : List Req) :
    (sortByName l).Perm l ∧
    ((sortByName l).Pairwise fun a b => lexLt b.name a.name = false) ∧
    ∀ n : LC, (sortByName l).filter (fun x => decide (x.name = n))
        = l.filter (fun x => decide (x.name = n)) :=
  ⟨sortS_perm nameLt l, sortS_pairwise l, fun n => sortS_filter l n⟩

/-! ## Claim C9: no blank or comment line is skipped before parsing -/

/-- C9 counterexample: loading the two lines `# tool notes` and
`foo == 1.0` does not succeed — `from_lines` hands the comment line to
the parser, which rejects it, aborting the load instead of yielding the
genuine entry. -/
theorem c9_comment_line_counterexample :
    from_lines ["# tool notes".toList, "foo == 1.0".toList]
      = Except.error "# tool notes".toList := by
  rfl

/-- C9 amended: `from_lines` performs no blank- or comment-line
filtering: every line, in sorted order, is passed to the parser, so a
line list containing a blank (whitespace-only) line or a comment line
(leading `#`) fails to load with a parse error. -/
theorem c9_no_skipping (lines : List LC) (l : LC) (hmem : l ∈ lines)
    (hskip : pystrip l = [] ∨ l.head? = some '#') :
    ∃ e, from_lines lines = Except.error e := by
  have hp : parseReq l = none := parse_skippable_none l hskip
  have hmem2 : l ∈ sortS lexLt lines :=
    ((sortS_perm lexLt lines).mem_iff).mpr hmem
  exact parseAll_error_of_mem _ l hmem2 hp

/-- Witness for C9 at a concrete line list containing a comment. -/
theorem c9_no_skipping_witness :
    ∃ e, from_lines ["# pinned".toList, "bar == 2".toList]
      = Except.error e :=
  c9_no_skipping ["# pinned".toList, "bar == 2".toList] "# pinned".toList
    (by decide) (Or.inr rfl)

/-! ## Claim C10: equality ignores the name, the hash does not -/

/-- C10: the requirements `foo == 1.0` and `bar == 1.0` have different
names but identical specs sets: they compare equal under `__eq__`
(specs-set equality) while their hash inputs — the full canonical
strings, which include the names — differ, so equal requirements are not
guaranteed equal hashes. -/
theorem c10_eq_specs_hash_name :
    reqEq ⟨"foo".toList, [], [(opEQ, "1.0".toList)], ReqKind.registry, [], [], []⟩
        ⟨"bar".toList, [], [(opEQ, "1.0".toList)], ReqKind.registry, [], [], []⟩
      = true ∧
    (⟨"foo".toList, [], [(opEQ, "1.0".toList)], ReqKind.registry, [], [], []⟩ : Req).name
      ≠ (⟨"bar".toList, [], [(opEQ, "1.0".toList)], ReqKind.registry, [], [], []⟩ : Req).name ∧
    hashKey ⟨"foo".toList, [], [(opEQ, "1.0".toList)], ReqKind.registry, [], [], []⟩
      ≠ hashKey ⟨"bar".toList, [], [(opEQ, "1.0".toList)], ReqKind.registry, [], [], []⟩ := by
  refine ⟨by decide, by decide, by decide⟩

end Requirementz
